import Mathlib

/-!
# Verification of the subserver versioned-subtitle naming and catalog engine

Shallow embedding of the core of `server.js` (GCS-backed variant): the slug
sanitiser (the `slugify` call with `lower`, `strict` and the custom remove set),
the versioned-filename codec (`parseVersionedFilename` / `buildVersionedFilename`),
the version allocator, the prefix-based delete routes, the single-`.srt` upload
branch, the per-episode versions route and the JSON catalog builder of `/list`.

The object store is modelled as the list of stored keys in listing order;
object bytes and metadata (`uploadedAt`) are owned by the external store and
are not part of the key-engine state, so they are omitted.  JS strings are
Lean `String`s, JS numbers reaching the engine are `Int`/`Nat`, and the
`parseInt(x, 10)` calls are modelled by an explicit `jsParseInt`.
-/

set_option maxRecDepth 8000

namespace Subserver

/-! ## Character classes (ASCII, as used by the JS regexes involved) -/

def digitChars : List Char :=
  ['0','1','2','3','4','5','6','7','8','9']

def lowerAlnumChars : List Char :=
  ['a','b','c','d','e','f','g','h','i','j','k','l','m',
   'n','o','p','q','r','s','t','u','v','w','x','y','z',
   '0','1','2','3','4','5','6','7','8','9']

def upperChars : List Char :=
  ['A','B','C','D','E','F','G','H','I','J','K','L','M',
   'N','O','P','Q','R','S','T','U','V','W','X','Y','Z']

/-- Lower-case ASCII letters and digits: the only characters the sanitiser can
output besides `-`. -/
def isOutChar (c : Char) : Bool := decide (c ∈ lowerAlnumChars)

/-- The class `[A-Za-z0-9]`, the characters kept by slugify's `strict` filter. -/
def isAlnumChar (c : Char) : Bool := decide (c ∈ lowerAlnumChars ∨ c ∈ upperChars)

/-- ASCII whitespace recognised by the JS `\s` class. -/
def isJsSpace (c : Char) : Bool :=
  decide (c ∈ [' ', '\t', '\n', '\r', Char.ofNat 11, Char.ofNat 12])

def isDigitChar (c : Char) : Bool := decide (c ∈ digitChars)

/-- The character set of the `remove` option passed to slugify in `sanitise`,
the regex `[*+~.()'"!:@]`. -/
def removeChars : List Char :=
  ['*', '+', '~', '.', '(', ')', Char.ofNat 39, Char.ofNat 34, '!', ':', '@']

def inRemoveSet (c : Char) : Bool := decide (c ∈ removeChars)

def lowerPairs : List (Char × Char) :=
  [('A','a'),('B','b'),('C','c'),('D','d'),('E','e'),('F','f'),('G','g'),
   ('H','h'),('I','i'),('J','j'),('K','k'),('L','l'),('M','m'),('N','n'),
   ('O','o'),('P','p'),('Q','q'),('R','r'),('S','s'),('T','t'),('U','u'),
   ('V','v'),('W','w'),('X','x'),('Y','y'),('Z','z')]

/-- ASCII lower-casing, the effect of JS `toLowerCase()` on the ASCII range
(slugify's final step). -/
def lowerChar (c : Char) : Char :=
  match lowerPairs.find? (fun p => p.1 == c) with
  | some p => p.2
  | none => c

/-! ## The slug sanitiser

`sanitise(str) = slugify(str, { lower: true, strict: true, remove: /[*+~.()'"!:@]/g })`.

slugify's pipeline: map each character through its char-map (identity on
alphanumerics; on ASCII it maps only `$ % & < > |` to words), turn a mapped
`-` into a space, delete the `remove` characters, then (`strict`) delete
everything but `[A-Za-z0-9\s]`, trim, collapse whitespace runs to single `-`,
and lower-case.  The char-map's non-ASCII transliteration entries are modelled
as the identity; such characters are deleted by the strict filter either way. -/

/-- slugify's char-map, restricted to its ASCII entries. -/
def slugCharMap (c : Char) : List Char :=
  if c = '$' then "dollar".data
  else if c = '%' then "percent".data
  else if c = '&' then "and".data
  else if c = '<' then "less".data
  else if c = '>' then "greater".data
  else if c = '|' then "or".data
  else [c]

/-- Per-character step of slugify's reduce: char-map, `-` becomes a space,
then the `remove` characters are deleted. -/
def slugStep (c : Char) : List Char :=
  let m := slugCharMap c
  let m2 := if m = ['-'] then [' '] else m
  m2.filter (fun d => !inRemoveSet d)

def slugPass1 (l : List Char) : List Char := (l.map slugStep).flatten

def strictFilter (l : List Char) : List Char :=
  l.filter (fun c => isAlnumChar c || isJsSpace c)

def trimSpaces (l : List Char) : List Char :=
  ((l.dropWhile isJsSpace).reverse.dropWhile isJsSpace).reverse

/-- Replace every maximal run of whitespace by a single `-`
(JS `slug.replace(/\s+/g, '-')`). -/
def collapseSpaces : List Char → List Char
  | [] => []
  | [c] => [if isJsSpace c then '-' else c]
  | a :: b :: rest =>
    if isJsSpace a && isJsSpace b then collapseSpaces (b :: rest)
    else (if isJsSpace a then '-' else a) :: collapseSpaces (b :: rest)

def sanitiseL (l : List Char) : List Char :=
  (collapseSpaces (trimSpaces (strictFilter (slugPass1 l)))).map lowerChar

/-- No two adjacent hyphens anywhere in the list. -/
def noDoubleDash : List Char → Bool
  | [] => true
  | [_] => true
  | a :: b :: rest => !(a == '-' && b == '-') && noDoubleDash (b :: rest)

/-- Replace each `-` by a space: what the slugify pipeline's first pass does to
an already-sanitised string. -/
def dashToSpace (l : List Char) : List Char :=
  l.map (fun c => if c = '-' then ' ' else c)

/-- The `sanitise` helper from server.js. -/
def sanitise (s : String) : String := ⟨sanitiseL s.data⟩

/-! ## Decimal numerals

JS renders the engine's non-negative integers in template strings as plain
decimal; `parseInt(x, 10)` skips leading whitespace, takes an optional sign and
the longest leading digit run, and is `NaN` (here `none`) when that run is
empty. -/

def digitChar (n : Nat) : Char :=
  match n with
  | 0 => '0' | 1 => '1' | 2 => '2' | 3 => '3' | 4 => '4'
  | 5 => '5' | 6 => '6' | 7 => '7' | 8 => '8' | _ => '9'

def natStrGo : Nat → Nat → List Char → List Char
  | 0, _, acc => acc
  | fuel + 1, n, acc =>
    if n < 10 then digitChar n :: acc
    else natStrGo fuel (n / 10) (digitChar (n % 10) :: acc)

/-- Decimal representation of a natural number (JS number-to-string for the
non-negative integers the engine handles). -/
def natStr (n : Nat) : List Char := natStrGo (n + 1) n []

def natToString (n : Nat) : String := ⟨natStr n⟩

def intToString (i : Int) : String :=
  if i < 0 then "-" ++ natToString i.natAbs else natToString i.toNat

def digitVal (c : Char) : Nat := c.toNat - 48

def digitsVal (l : List Char) : Nat := l.foldl (fun a c => a * 10 + digitVal c) 0

def jsParseIntDigits (l : List Char) : Option Int :=
  let ds := l.takeWhile isDigitChar
  if ds.isEmpty then none else some (digitsVal ds)

/-- Model of `parseInt(s, 10)`, with `none` for `NaN`. -/
def jsParseInt (l : List Char) : Option Int :=
  match l.dropWhile isJsSpace with
  | [] => none
  | c :: r =>
    if c = '-' then (jsParseIntDigits r).map (fun n => -n)
    else if c = '+' then jsParseIntDigits r
    else jsParseIntDigits (c :: r)

/-! ## String splitting, as JS `String.prototype.split` -/

/-- Model of `s.split(sep)` for a single-character separator. -/
def splitCh (sep : Char) : List Char → List (List Char)
  | [] => [[]]
  | c :: rest =>
    if c = sep then [] :: splitCh sep rest
    else
      match splitCh sep rest with
      | [] => [[c]]
      | h :: t => (c :: h) :: t

/-- Model of `s.split('_v')`: split at every non-overlapping occurrence of the
two-character separator, scanning left to right. -/
def splitUV : List Char → List (List Char)
  | [] => [[]]
  | [c] => [[c]]
  | a :: b :: rest =>
    if a = '_' ∧ b = 'v' then [] :: splitUV rest
    else
      match splitUV (b :: rest) with
      | [] => [[a]]
      | h :: t => (a :: h) :: t

/-- Whether the two-character sequence `_v` occurs in the list. -/
def hasUV : List Char → Bool
  | [] => false
  | [_] => false
  | a :: b :: rest => (a == '_' && b == 'v') || hasUV (b :: rest)

/-! ## `path.basename(filename, '.srt')` -/

def dropTrailingSlashes (l : List Char) : List Char :=
  (l.reverse.dropWhile (fun c => c == '/')).reverse

def lastSlashSeg (l : List Char) : List Char :=
  (l.reverse.takeWhile (fun c => c != '/')).reverse

def jsBasenameSeg (l : List Char) : List Char := lastSlashSeg (dropTrailingSlashes l)

def srtExt : List Char := ['.', 's', 'r', 't']

/-- Strip the extension suffix unless the basename is exactly the extension
(Node's `basename(p, ext)` behaviour). -/
def stripExt (base ext : List Char) : List Char :=
  if !(base == ext) && ext.isSuffixOf base then base.take (base.length - ext.length)
  else base

def jsBasenameSrt (l : List Char) : List Char := stripExt (jsBasenameSeg l) srtExt

/-! ## The versioned-filename codec -/

structure ParsedName where
  episode : Int
  version : Int
  source : String
deriving DecidableEq

instance instDecEqExcept {ε α : Type} [DecidableEq ε] [DecidableEq α] :
    DecidableEq (Except ε α) := fun x y =>
  match x, y with
  | .ok a, .ok b =>
    if h : a = b then .isTrue (by rw [h]) else .isFalse (by intro hc; cases hc; exact h rfl)
  | .error a, .error b =>
    if h : a = b then .isTrue (by rw [h]) else .isFalse (by intro hc; cases hc; exact h rfl)
  | .ok _, .error _ => .isFalse (by intro hc; cases hc)
  | .error _, .ok _ => .isFalse (by intro hc; cases hc)

/-- The `parseVersionedFilename` helper from server.js: split the basename on `'_v'`
(exactly two parts required), split the tail on `'_'` (exactly two parts
required), `parseInt` the episode and version parts, and require a non-empty
source. -/
def parseVersionedFilenameL (filename : List Char) : Option ParsedName :=
  let base := jsBasenameSrt filename
  match splitUV base with
  | [episodePart, rest] =>
    match splitCh '_' rest with
    | [verPart, srcPart] =>
      match jsParseInt verPart, jsParseInt episodePart with
      | some version, some episode =>
        if srcPart.isEmpty then none else some ⟨episode, version, ⟨srcPart⟩⟩
      | _, _ => none
    | _ => none
  | _ => none

def parseVersionedFilename (s : String) : Option ParsedName := parseVersionedFilenameL s.data

/-- Modelled from the spec: a leaf filename matches the versioned-filename
grammar `(\d+)_v(\d+)_(.+)\.srt` anchored at both ends, the decoder contract
stated in §4.1; used to compare `parseVersionedFilename` against the spec's
regular expression. -/
def MatchesVersionedGrammar (f : String) : Prop :=
  ∃ d1 d2 s : List Char,
    d1 ≠ [] ∧ (∀ c ∈ d1, isDigitChar c = true) ∧
    d2 ≠ [] ∧ (∀ c ∈ d2, isDigitChar c = true) ∧ s ≠ [] ∧
    f.data = d1 ++ '_' :: 'v' :: (d2 ++ '_' :: (s ++ srtExt))

/-- The JS value reaching the single-file upload's `episode` variable: a number
when derived from the filename by `extractEpisodeNumber`, a string when taken
from the multipart form field `req.body.episode`. -/
inductive EpParam where
  | num (n : Nat)
  | str (s : String)
deriving DecidableEq

def epToString : EpParam → String
  | .num n => natToString n
  | .str s => s

/-- The `buildVersionedFilename(episode, version, source)` helper from server.js. -/
def buildVersionedFilename (episode : EpParam) (version : Int) (source : String) : String :=
  epToString episode ++ "_v" ++ intToString version ++ "_" ++ source ++ ".srt"

/-! ## The object store

Modelled as the list of stored keys in the store's listing order.
`bucket.getFiles({ prefix })` filters on key prefix; `blob.save` overwrites the
object at a key (the key set gains the key if absent); `file.delete()` removes
one key. -/

def keyStartsWith (k pre : String) : Bool := pre.data.isPrefixOf k.data

/-- The leaf segment `file.name.split('/').pop()`. -/
def keyLeaf (k : String) : String := ⟨((splitCh '/' k.data).getLast?).getD []⟩

/-- The show segment `file.name.split('/')[1]`. -/
def keyShow (k : String) : String := ⟨((splitCh '/' k.data).get? 1).getD []⟩

/-- The third segment `file.name.split('/')[2]`. -/
def keySeg2 (k : String) : String := ⟨((splitCh '/' k.data).get? 2).getD []⟩

def jsSave (store : List String) (key : String) : List String :=
  if key ∈ store then store else store ++ [key]

def getFilesByPrefix (store : List String) (pre : String) : List String :=
  store.filter (fun k => keyStartsWith k pre)

/-- The `deleteFilesByPrefix` helper from server.js: delete every object matching the
prefix and report how many were deleted. -/
def deleteFilesByPrefix (store : List String) (pre : String) : List String × Nat :=
  (store.filter (fun k => !keyStartsWith k pre), (getFilesByPrefix store pre).length)

def eraseFirstKey : List String → String → List String
  | [], _ => []
  | k :: rest, t => if k = t then rest else k :: eraseFirstKey rest t

/-- The `/season-<sanitised>` segment added when the upload form's `season`
field is truthy. -/
def seasonSeg : Option String → String
  | none => ""
  | some s => if s = "" then "" else "/season-" ++ sanitise s

/-- The episode-scope prefix `shows/<show>[/season-<season>]/<episode>_v` built
identically by the upload branches and the delete-episode routes. -/
def scopePrefix (title : String) (season : Option String) (ep : Nat) : String :=
  "shows/" ++ sanitise title ++ seasonSeg season ++ "/" ++ natToString ep ++ "_v"

/-! ## Delete routes -/

/-- Route `DELETE /shows/:show/:season`: prefix-delete of
`shows/<show>/season-<season>/`; responds with the deleted count. -/
def deleteSeasonRoute (store : List String) (showT season : String) : List String × Nat :=
  deleteFilesByPrefix store
    ("shows/" ++ sanitise showT ++ "/" ++ ("season-" ++ sanitise season) ++ "/")

/-- Route `DELETE /shows/:show/episode/:episode` (and the season variant): deletes
all versions of the episode by prefix; responds with the deleted count. -/
def deleteEpisodeRoute (store : List String) (showT : String) (season : Option String)
    (ep : Nat) : List String × Nat :=
  deleteFilesByPrefix store (scopePrefix showT season ep)

/-- The exact-version prefix `shows/<show>/<episode>_v<version>_` of the
season-less version-delete route (source left as a wildcard). -/
def versionPrefix (showT : String) (ep ver : Int) : String :=
  "shows/" ++ sanitise showT ++ "/" ++ intToString ep ++ "_v" ++ intToString ver ++ "_"

/-- Route `DELETE /shows/:show/episode/:episode/version/:version`: lists by the
exact-version prefix, 404 when nothing matches, otherwise deletes `files[0]`
and responds `{ success: true }` with no count. -/
def deleteVersionRoute (store : List String) (showT : String) (ep ver : Int) :
    Except Nat (List String × Option Nat) :=
  match getFilesByPrefix store (versionPrefix showT ep ver) with
  | [] => .error 404
  | f :: _ => .ok (eraseFirstKey store f, none)

/-- The exact-version prefix
`shows/<show>/season-<season>/<episode>_v<version>_` of the with-season
version-delete route (source left as a wildcard). -/
def versionPrefixSeason (showT season : String) (ep ver : Int) : String :=
  "shows/" ++ sanitise showT ++ "/" ++ ("season-" ++ sanitise season) ++ "/"
    ++ intToString ep ++ "_v" ++ intToString ver ++ "_"

/-- Route `DELETE /shows/:show/:season/episode/:episode/version/:version`:
lists by the with-season exact-version prefix, 404 when nothing matches,
otherwise deletes `files[0]` and responds `{ success: true }` with no count. -/
def deleteVersionSeasonRoute (store : List String) (showT season : String) (ep ver : Int) :
    Except Nat (List String × Option Nat) :=
  match getFilesByPrefix store (versionPrefixSeason showT season ep ver) with
  | [] => .error 404
  | f :: _ => .ok (eraseFirstKey store f, none)

/-! ## The version allocator -/

/-- The version-allocation scan of the upload route's zip branch: list the
episode prefix, take the max version among leaves that decode to this episode,
and add one. -/
def nextVersion (store : List String) (pre : String) (episode : Int) : Int :=
  (getFilesByPrefix store pre).foldl (fun mv f =>
    match parseVersionedFilename (keyLeaf f) with
    | some p => if p.episode == episode then max mv p.version else mv
    | none => mv) 0 + 1

/-- Modelled from the spec: the versions of the objects currently stored under
an episode scope — the allocator input described in §4.3 of the spec, used to
compare the implementation's scan against `max(existing versions) + 1`. -/
def storedVersions (store : List String) (pre : String) (episode : Int) : List Int :=
  (getFilesByPrefix store pre).filterMap (fun f =>
    match parseVersionedFilename (keyLeaf f) with
    | some p => if p.episode == episode then some p.version else none
    | none => none)

/-! ## The single-`.srt` upload branch -/

structure UploadedEntry where
  filename : String
  episode : EpParam
  version : Int
  source : String
deriving DecidableEq

/-- JS falsiness of the resolved `episode` value
(`req.body.episode || extractEpisodeNumber(...)`). -/
def epFalsy : Option EpParam → Bool
  | none => true
  | some (.num n) => n == 0
  | some (.str s) => s == ""

/-- The `parsed.episode === episode` comparison: strict equality between the
parsed number and the branch's episode value, which is `false` whenever the
latter is a string. -/
def strictEqEpisode (parsedEp : Int) : EpParam → Bool
  | .num n => parsedEp == (n : Int)
  | .str _ => false

/-- The single-`.srt` branch of `POST /upload`: validate title/source/episode,
scan the episode prefix for the max matching version, build the destination
key and save.  Errors are the route's 400 messages. -/
def uploadSingle (store : List String) (title : String) (season : Option String)
    (episodeParam : Option EpParam) (source : String) :
    Except String (List String × UploadedEntry) :=
  if title = "" then .error "Missing title"
  else if source = "" then .error "Missing source"
  else if epFalsy episodeParam then
    .error "Could not detect episode number; provide it explicitly"
  else
    match episodeParam with
    | none => .error "Could not detect episode number; provide it explicitly"
    | some ep =>
      let safeTitle := sanitise title
      let pre := "shows/" ++ safeTitle ++ seasonSeg season ++ "/" ++ epToString ep ++ "_v"
      let maxV := (getFilesByPrefix store pre).foldl (fun mv f =>
        match parseVersionedFilename (keyLeaf f) with
        | some p => if strictEqEpisode p.episode ep then max mv p.version else mv
        | none => mv) 0
      let version := maxV + 1
      let destFilename := buildVersionedFilename ep version source
      let destPath := "shows/" ++ safeTitle ++ seasonSeg season ++ "/" ++ destFilename
      .ok (jsSave store destPath, ⟨destFilename, ep, version, source⟩)

/-! ## The versions route -/

structure VersionOut where
  version : Int
  source : String
  filename : String
deriving DecidableEq

/-- One step of a stable ascending insertion sort by version, modelling the
(stable) JS `sort((a, b) => a.version - b.version)`. -/
def insertByVersion (acc : List VersionOut) (x : VersionOut) : List VersionOut :=
  match acc with
  | [] => [x]
  | y :: ys => if x.version < y.version then x :: y :: ys else y :: insertByVersion ys x

def sortByVersion (l : List VersionOut) : List VersionOut := l.foldl insertByVersion []

/-- Route `GET /versions/:title/:episode`: scan the episode prefix, keep leaves that
decode to `parseInt(episode, 10)`, and sort ascending by version.  The
`uploadedAt` metadata field is owned by the store and omitted. -/
def versionsRoute (store : List String) (title episodeParam : String) : List VersionOut :=
  let pre := "shows/" ++ sanitise title ++ "/" ++ episodeParam ++ "_v"
  let epN := jsParseInt episodeParam.data
  sortByVersion ((getFilesByPrefix store pre).filterMap (fun f =>
    match parseVersionedFilename (keyLeaf f) with
    | some p =>
      match epN with
      | some n => if p.episode == n then some ⟨p.version, p.source, keyLeaf f⟩ else none
      | none => none
    | none => none))

/-! ## The JSON catalog builder of `GET /list`

`shows` is a JS object whose per-show value starts as `{}`, is replaced by a
fresh array when a season-less key is seen while the value is not an array
(dropping any season properties), and receives season data either as object
entries or as non-index properties of the array.  `JSON.stringify` serialises
an array's indexed elements only, so array-held season properties vanish from
the response. -/

structure EpisodeEntry where
  episode : Int
  versions : List VersionOut
deriving DecidableEq

/-- The per-show JS value: a plain object of season entries, or an array of
episode entries possibly carrying season-keyed non-index properties. -/
inductive ShowData where
  | obj (seasons : List (String × List EpisodeEntry))
  | arr (eps : List EpisodeEntry) (props : List (String × List EpisodeEntry))
deriving DecidableEq

def lookupSD : List (String × ShowData) → String → Option ShowData
  | [], _ => none
  | (k, v) :: rest, key => if k = key then some v else lookupSD rest key

def setSD : List (String × ShowData) → String → ShowData → List (String × ShowData)
  | [], key, v => [(key, v)]
  | (k, w) :: rest, key, v =>
    if k = key then (k, v) :: rest else (k, w) :: setSD rest key v

def lookupEps : List (String × List EpisodeEntry) → String → Option (List EpisodeEntry)
  | [], _ => none
  | (k, v) :: rest, key => if k = key then some v else lookupEps rest key

/-- Model of `let epObj = list.find(e => e.episode === episode); if (!epObj) push;
epObj.versions.push(v)`. -/
def addVersion (eps : List EpisodeEntry) (e : Int) (v : VersionOut) : List EpisodeEntry :=
  if eps.any (fun x => x.episode == e) then
    eps.map (fun x => if x.episode == e then { x with versions := x.versions ++ [v] } else x)
  else eps ++ [{ episode := e, versions := [v] }]

/-- Model of `if (!m[season]) m[season] = []` followed by the find/push above. -/
def addToSeason (m : List (String × List EpisodeEntry)) (s : String) (e : Int)
    (v : VersionOut) : List (String × List EpisodeEntry) :=
  match lookupEps m s with
  | none => m ++ [(s, addVersion [] e v)]
  | some _ => m.map (fun kv => if kv.1 = s then (kv.1, addVersion kv.2 e v) else kv)

/-- The body of the `for (const file of files)` loop of `/list`'s JSON branch. -/
def catStep (shows : List (String × ShowData)) (key : String) : List (String × ShowData) :=
  let parts := splitCh '/' key.data
  if parts.length < 3 then shows
  else
    let showName := keyShow key
    let shows1 := if (lookupSD shows showName).isSome then shows
                  else shows ++ [(showName, ShowData.obj [])]
    let filename := keyLeaf key
    match parseVersionedFilename filename with
    | none => shows1
    | some p =>
      let v : VersionOut := ⟨p.version, p.source, filename⟩
      if parts.length = 3 then
        -- season-less key: a non-array value is replaced by a fresh array
        match lookupSD shows1 showName with
        | some (ShowData.arr eps props) =>
          setSD shows1 showName (ShowData.arr (addVersion eps p.episode v) props)
        | _ => setSD shows1 showName (ShowData.arr (addVersion [] p.episode v) [])
      else if parts.length = 4 && keyStartsWith (keySeg2 key) "season-" then
        let season := keySeg2 key
        match lookupSD shows1 showName with
        | some (ShowData.obj seasons) =>
          setSD shows1 showName (ShowData.obj (addToSeason seasons season p.episode v))
        | some (ShowData.arr eps props) =>
          setSD shows1 showName (ShowData.arr eps (addToSeason props season p.episode v))
        | none => setSD shows1 showName (ShowData.obj (addToSeason [] season p.episode v))
      else shows1

def sortEntryVersions (eps : List EpisodeEntry) : List EpisodeEntry :=
  eps.map (fun e => { e with versions := sortByVersion e.versions })

/-- The final sorting pass: array shows sort their indexed episode entries
only (non-index season properties are not visited); object shows sort each
season's entries. -/
def sortShowData : ShowData → ShowData
  | .arr eps props => .arr (sortEntryVersions eps) props
  | .obj seasons => .obj (seasons.map (fun kv => (kv.1, sortEntryVersions kv.2)))

def buildCatalog (store : List String) : List (String × ShowData) :=
  ((getFilesByPrefix store "shows/").foldl catStep []).map (fun kv => (kv.1, sortShowData kv.2))

/-- The per-show shape as it appears in the serialised JSON response. -/
inductive ShowJson where
  | list (eps : List EpisodeEntry)
  | mapping (seasons : List (String × List EpisodeEntry))
deriving DecidableEq

/-- The `JSON.stringify` view: arrays keep only their indexed elements, dropping
season-keyed properties. -/
def showDataToJson : ShowData → ShowJson
  | .arr eps _ => .list eps
  | .obj seasons => .mapping seasons

def buildCatalogJson (store : List String) : List (String × ShowJson) :=
  (buildCatalog store).map (fun kv => (kv.1, showDataToJson kv.2))

/-! # Helper lemmas

## Decimal numerals -/

theorem digitChar_spec (k : Nat) (h : k < 10) :
    isDigitChar (digitChar k) = true ∧ digitVal (digitChar k) = k := by
  interval_cases k <;> exact ⟨by decide, by decide⟩

theorem natStrGo_spec : ∀ (fuel n : Nat) (acc : List Char), n < fuel →
    natStrGo fuel n acc = natStr n ++ acc := by
  intro fuel
  induction fuel using Nat.strong_induction_on with
  | _ fuel ih =>
    intro n acc hn
    match fuel, hn with
    | f + 1, hn =>
      by_cases h10 : n < 10
      · simp [natStrGo, natStr, h10]
      · have hn10 : n / 10 < n := Nat.div_lt_self (by omega) (by omega)
        have hstep : natStrGo (f + 1) n acc
            = natStrGo f (n / 10) (digitChar (n % 10) :: acc) := by
          simp [natStrGo, h10]
        have hself : natStr n = natStr (n / 10) ++ [digitChar (n % 10)] := by
          have : natStr n = natStrGo n (n / 10) [digitChar (n % 10)] := by
            simp [natStr, natStrGo, h10]
          rw [this, ih n hn (n / 10) _ hn10]
        rw [hstep, ih f (by omega) (n / 10) _ (by omega), hself, List.append_assoc]
        rfl

theorem natStr_eq_lt (n : Nat) (h : n < 10) : natStr n = [digitChar n] := by
  simp [natStr, natStrGo, h]

theorem natStr_eq_ge (n : Nat) (h : 10 ≤ n) :
    natStr n = natStr (n / 10) ++ [digitChar (n % 10)] := by
  have h10 : ¬ n < 10 := by omega
  have : natStr n = natStrGo n (n / 10) [digitChar (n % 10)] := by
    simp [natStr, natStrGo, h10]
  rw [this, natStrGo_spec n (n / 10) _ (Nat.div_lt_self (by omega) (by omega))]

theorem natStr_all_digits (n : Nat) : ∀ c ∈ natStr n, isDigitChar c = true := by
  induction n using Nat.strong_induction_on with
  | _ n ih =>
    by_cases h10 : n < 10
    · rw [natStr_eq_lt n h10]
      intro c hc
      rw [List.mem_singleton] at hc
      subst hc
      exact (digitChar_spec n h10).1
    · rw [natStr_eq_ge n (by omega)]
      intro c hc
      rcases List.mem_append.mp hc with h | h
      · exact ih (n / 10) (Nat.div_lt_self (by omega) (by omega)) c h
      · rw [List.mem_singleton] at h
        subst h
        exact (digitChar_spec _ (Nat.mod_lt _ (by omega))).1

theorem natStr_ne_nil (n : Nat) : natStr n ≠ [] := by
  by_cases h10 : n < 10
  · rw [natStr_eq_lt n h10]; simp
  · rw [natStr_eq_ge n (by omega)]; simp

theorem digitsVal_snoc (l : List Char) (c : Char) :
    digitsVal (l ++ [c]) = digitsVal l * 10 + digitVal c := by
  simp [digitsVal, List.foldl_append]

theorem digitsVal_natStr (n : Nat) : digitsVal (natStr n) = n := by
  induction n using Nat.strong_induction_on with
  | _ n ih =>
    by_cases h10 : n < 10
    · rw [natStr_eq_lt n h10]
      simp [digitsVal, (digitChar_spec n h10).2]
    · rw [natStr_eq_ge n (by omega), digitsVal_snoc,
        ih (n / 10) (Nat.div_lt_self (by omega) (by omega)),
        (digitChar_spec _ (Nat.mod_lt _ (by omega))).2]
      omega

/-- A decimal digit is none of the structurally significant characters, nor
whitespace. -/
theorem digit_ne (c : Char) (h : isDigitChar c = true) :
    c ≠ '_' ∧ c ≠ '/' ∧ c ≠ '-' ∧ c ≠ '+' ∧ c ≠ 'v' ∧ isJsSpace c = false := by
  have hmem : c ∈ digitChars := of_decide_eq_true h
  fin_cases hmem <;> exact ⟨by decide, by decide, by decide, by decide, by decide, by decide⟩

theorem takeWhile_all {p : Char → Bool} : ∀ l : List Char,
    (∀ c ∈ l, p c = true) → l.takeWhile p = l := by
  intro l h
  induction l with
  | nil => rfl
  | cons a r ih =>
    rw [List.takeWhile_cons, h a (by simp)]
    simp [ih (fun c hc => h c (by simp [hc]))]

theorem jsParseInt_all_digits (l : List Char) (hne : l ≠ [])
    (hd : ∀ c ∈ l, isDigitChar c = true) : jsParseInt l = some (digitsVal l) := by
  match l, hne with
  | a :: r, _ =>
    have ha := hd a (by simp)
    have hdrop : (a :: r).dropWhile isJsSpace = a :: r := by
      rw [List.dropWhile_cons, (digit_ne a ha).2.2.2.2.2]
      simp
    rw [jsParseInt, hdrop]
    simp only [if_neg (digit_ne a ha).2.2.1, if_neg (digit_ne a ha).2.2.2.1]
    rw [jsParseIntDigits, takeWhile_all _ hd]
    simp

/-! ## Splitting lemmas -/

theorem splitCh_ne_nil (sep : Char) : ∀ l, splitCh sep l ≠ [] := by
  intro l
  match l with
  | [] => simp [splitCh]
  | c :: rest =>
    by_cases hc : c = sep
    · simp [splitCh, hc]
    · cases h : splitCh sep rest with
      | nil => simp [splitCh, hc, h]
      | cons x xs => simp [splitCh, hc, h]

theorem splitCh_no_sep (sep : Char) : ∀ l, sep ∉ l → splitCh sep l = [l] := by
  intro l
  induction l with
  | nil => intro _; rfl
  | cons c rest ih =>
    intro h
    have hc : ¬ c = sep := fun he => h (he ▸ List.mem_cons_self c rest)
    rw [splitCh, if_neg hc, ih (fun hm => h (List.mem_cons_of_mem c hm))]

theorem splitCh_append (sep : Char) :
    ∀ a, sep ∉ a → ∀ b, splitCh sep (a ++ sep :: b) = a :: splitCh sep b := by
  intro a
  induction a with
  | nil => intro _ b; simp [splitCh]
  | cons c a' ih =>
    intro h b
    have hc : ¬ c = sep := fun he => h (he ▸ List.mem_cons_self c a')
    have ih' := ih (fun hm => h (List.mem_cons_of_mem c hm)) b
    rw [List.cons_append, splitCh, if_neg hc, ih']

theorem hasUV_no_us : ∀ l, '_' ∉ l → hasUV l = false := by
  intro l
  match l with
  | [] => intro _; rfl
  | [c] => intro _; rfl
  | a :: b :: r =>
    intro h
    have ha : ¬ a = '_' := fun he => h (he ▸ List.mem_cons_self a (b :: r))
    have hrest : '_' ∉ b :: r := fun hm => h (List.mem_cons_of_mem a hm)
    rw [hasUV, hasUV_no_us (b :: r) hrest]
    simp [ha]

theorem hasUV_append_false :
    ∀ a, '_' ∉ a → ∀ b, '_' ∉ b → b.head? ≠ some 'v' →
      hasUV (a ++ '_' :: b) = false := by
  intro a
  induction a with
  | nil =>
    intro _ b hb hbv
    cases b with
    | nil => rfl
    | cons b0 b' =>
      have hb0 : ¬ b0 = 'v' := fun he => hbv (by simp [he])
      rw [List.nil_append, hasUV, hasUV_no_us (b0 :: b') hb]
      simp [hb0]
  | cons c a' ih =>
    intro h b hb hbv
    have hc : ¬ c = '_' := fun he => h (he ▸ List.mem_cons_self c a')
    have ih' := ih (fun hm => h (List.mem_cons_of_mem c hm)) b hb hbv
    cases a' with
    | nil =>
      simp only [List.cons_append, List.nil_append] at ih' ⊢
      rw [hasUV, ih']
      simp [hc]
    | cons d a'' =>
      simp only [List.cons_append] at ih' ⊢
      rw [hasUV, ih']
      simp [hc]

theorem hasUV_false_split : ∀ l, hasUV l = false → splitUV l = [l] := by
  intro l
  match l with
  | [] => intro _; rfl
  | [c] => intro _; rfl
  | a :: b :: r =>
    intro h
    rw [hasUV] at h
    have hab : ¬ (a = '_' ∧ b = 'v') := by
      intro ⟨h1, h2⟩
      simp [h1, h2] at h
    have hrest : hasUV (b :: r) = false := by
      rcases Bool.or_eq_false_iff.mp h with ⟨_, h2⟩
      exact h2
    rw [splitUV, if_neg hab, hasUV_false_split (b :: r) hrest]

theorem splitUV_append :
    ∀ a, '_' ∉ a → ∀ b, splitUV (a ++ '_' :: 'v' :: b) = a :: splitUV b := by
  intro a
  induction a with
  | nil =>
    intro _ b
    rw [List.nil_append, splitUV, if_pos ⟨rfl, rfl⟩]
  | cons c a' ih =>
    intro h b
    have hc : ¬ c = '_' := fun he => h (he ▸ List.mem_cons_self c a')
    have ih' := ih (fun hm => h (List.mem_cons_of_mem c hm)) b
    have hne : ¬ (c = '_' ∧ (a' ++ '_' :: 'v' :: b).head! = 'v') := fun hx => hc hx.1
    cases a' with
    | nil =>
      rw [List.nil_append] at ih'
      rw [List.cons_append, List.nil_append, splitUV, if_neg (fun hx => hc hx.1), ih']
    | cons d a'' =>
      rw [List.cons_append] at ih'
      rw [List.cons_append, List.cons_append, splitUV, if_neg (fun hx => hc hx.1), ih']

/-! ## Basename lemmas -/

theorem dropWhile_all_false {p : Char → Bool} :
    ∀ l : List Char, (∀ c ∈ l, p c = false) → l.dropWhile p = l := by
  intro l h
  cases l with
  | nil => rfl
  | cons a r => rw [List.dropWhile_cons, h a (by simp)]; simp

theorem jsBasenameSeg_no_slash (l : List Char) (h : '/' ∉ l) : jsBasenameSeg l = l := by
  have hdrop : dropTrailingSlashes l = l := by
    rw [dropTrailingSlashes, dropWhile_all_false l.reverse
      (fun c hc => by
        have : c ≠ '/' := fun he => h (he ▸ List.mem_reverse.mp hc)
        simp [this]), List.reverse_reverse]
  have htake : lastSlashSeg l = l := by
    rw [lastSlashSeg, takeWhile_all l.reverse
      (fun c hc => by
        have : c ≠ '/' := fun he => h (he ▸ List.mem_reverse.mp hc)
        simp [this]), List.reverse_reverse]
  rw [jsBasenameSeg, hdrop, htake]

theorem stripExt_append (a : List Char) (ha : a ≠ []) :
    stripExt (a ++ srtExt) srtExt = a := by
  have hne : ¬ (a ++ srtExt = srtExt) := by
    intro he
    have := congrArg List.length he
    simp [srtExt] at this
    exact ha this
  have hbeq : (a ++ srtExt == srtExt) = false := beq_eq_false_iff_ne.mpr hne
  have hsuf : srtExt.isSuffixOf (a ++ srtExt) = true := by
    rw [List.isSuffixOf_iff_suffix]
    exact List.suffix_append a srtExt
  rw [stripExt, hbeq, hsuf]
  simp only [Bool.not_false, Bool.true_and, if_true]
  rw [List.length_append]
  simp only [srtExt, List.length_cons, List.length_nil]
  rw [show a.length + (0 + 1 + 1 + 1 + 1) - (0 + 1 + 1 + 1 + 1) = a.length by omega]
  exact List.take_left a srtExt

/-! ## The round-trip core: decoding a well-formed concatenation -/

theorem parse_concat (d1 d2 : List Char) (s : String)
    (h1 : d1 ≠ []) (h1d : ∀ c ∈ d1, isDigitChar c = true)
    (h2 : d2 ≠ []) (h2d : ∀ c ∈ d2, isDigitChar c = true)
    (hs : s.data ≠ []) (hsu : '_' ∉ s.data) (hss : '/' ∉ s.data)
    (hsv : s.data.head? ≠ some 'v') :
    parseVersionedFilenameL (d1 ++ '_' :: 'v' :: (d2 ++ '_' :: (s.data ++ srtExt)))
      = some ⟨(digitsVal d1 : Int), (digitsVal d2 : Int), s⟩ := by
  have hd1u : '_' ∉ d1 := fun hm => absurd (digit_ne _ (h1d _ hm)).1 (by simp)
  have hd2u : '_' ∉ d2 := fun hm => absurd (digit_ne _ (h2d _ hm)).1 (by simp)
  set pre : List Char := d1 ++ '_' :: 'v' :: (d2 ++ '_' :: s.data) with hpre
  have hshape : d1 ++ '_' :: 'v' :: (d2 ++ '_' :: (s.data ++ srtExt)) = pre ++ srtExt := by
    simp [hpre, List.append_assoc]
  have hslash : '/' ∉ pre ++ srtExt := by
    intro hm
    simp only [hpre, List.mem_append, List.mem_cons] at hm
    rcases hm with (h | h | h | h | h) | h
    · exact absurd (digit_ne _ (h1d _ h)).2.1 (by simp)
    · exact absurd h (by decide)
    · exact absurd h (by decide)
    · exact absurd (digit_ne _ (h2d _ h)).2.1 (by simp)
    · rcases h with h | h
      · exact absurd h (by decide)
      · exact hss h
    · exact absurd h (by decide)
  have hpren : pre ≠ [] := by
    simp [hpre]
  have hbase : jsBasenameSrt (pre ++ srtExt) = pre := by
    rw [jsBasenameSrt, jsBasenameSeg_no_slash _ hslash, stripExt_append _ hpren]
  have hrest : hasUV (d2 ++ '_' :: s.data) = false := by
    refine hasUV_append_false d2 hd2u s.data hsu ?_
    intro hh
    exact hsv (by rw [hh])
  have hsplit : splitUV pre = [d1, d2 ++ '_' :: s.data] := by
    rw [hpre, splitUV_append d1 hd1u, hasUV_false_split _ hrest]
  have hsplit2 : splitCh '_' (d2 ++ '_' :: s.data) = [d2, s.data] := by
    rw [splitCh_append '_' d2 hd2u, splitCh_no_sep '_' s.data hsu]
  have hempty : s.data.isEmpty = false := by
    cases hsd : s.data with
    | nil => exact absurd hsd hs
    | cons a r => rfl
  rw [hshape, parseVersionedFilenameL, hbase, hsplit]
  simp only [hsplit2, jsParseInt_all_digits d2 h2 h2d, jsParseInt_all_digits d1 h1 h1d,
    hempty, Bool.false_eq_true, if_false]
  rfl

theorem buildVersionedFilename_data (e v : Nat) (s : String) :
    (buildVersionedFilename (.num e) (v : Int) s).data
      = natStr e ++ '_' :: 'v' :: (natStr v ++ '_' :: (s.data ++ srtExt)) := by
  have hv : ¬ ((v : Int) < 0) := by omega
  simp only [buildVersionedFilename, epToString, intToString, hv, if_false, natToString,
    Int.toNat_natCast, String.data_append]
  simp [srtExt, List.append_assoc]

theorem string_ne_empty_data {s : String} (hs : s ≠ "") : s.data ≠ [] := by
  intro h
  apply hs
  cases s with
  | mk l =>
    simp only [String.data] at h
    subst h
    rfl

/-! # Claim theorems -/

/-- C2 (amended): for positive episode and version numbers and a non-empty
source that contains no underscore, contains no slash, and does not begin with
`v`, decoding the leaf filename produced by encoding recovers the address
exactly: `parseVersionedFilename (buildVersionedFilename e v s) = some ⟨e, v, s⟩`.
(Sources violating these conditions break the round-trip, see the
counterexample.) -/
theorem roundtrip_plain_sources (e v : Nat) (he : 0 < e) (hv : 0 < v) (s : String)
    (hs : s ≠ "") (hsu : '_' ∉ s.data) (hss : '/' ∉ s.data)
    (hsv : s.data.head? ≠ some 'v') :
    parseVersionedFilename (buildVersionedFilename (.num e) (v : Int) s)
      = some ⟨(e : Int), (v : Int), s⟩ := by
  have hdata : s.data ≠ [] := string_ne_empty_data hs
  rw [parseVersionedFilename, buildVersionedFilename_data,
    parse_concat (natStr e) (natStr v) s (natStr_ne_nil e) (natStr_all_digits e)
      (natStr_ne_nil v) (natStr_all_digits v) hdata hsu hss hsv,
    digitsVal_natStr, digitsVal_natStr]

theorem roundtrip_plain_sources_witness :
    0 < 2 ∧ 0 < 5 ∧ ("kitsu" : String) ≠ "" ∧
      parseVersionedFilename (buildVersionedFilename (.num 2) ((5 : Nat) : Int) "kitsu")
        = some ⟨(2 : Int), (5 : Int), "kitsu"⟩ :=
  ⟨by decide, by decide, by decide,
    roundtrip_plain_sources 2 5 (by decide) (by decide) "kitsu" (by decide) (by decide)
      (by decide) (by decide)⟩

/-- C2 counterexample: the source `a_b` is non-empty, so by the claim the
round-trip should recover it, but the decoder returns `none` on the encoded
filename because its underscore split finds three parts. -/
theorem roundtrip_fails_on_underscore_source :
    buildVersionedFilename (.num 1) (1 : Int) "a_b" = "1_v1_a_b.srt"
    ∧ parseVersionedFilename "1_v1_a_b.srt" = none
    ∧ parseVersionedFilename (buildVersionedFilename (.num 1) (1 : Int) "a_b")
        ≠ some ⟨(1 : Int), (1 : Int), "a_b"⟩ :=
  ⟨by decide, by decide, by decide⟩

/-- C5 (amended): the decoder returns `none` whenever the leaf's basename
contains no `_v` separator at all; and it returns the decoded triple for every
filename of the grammar shape `<digits>_v<digits>_<source>.srt` whose source
is non-empty, has no underscore, has no slash and does not begin with `v`.
The original "null exactly on grammar mismatch" is false in both directions:
grammar-matching names with an underscore in the source decode to `none`, and
some non-matching names (e.g. episode part `3x`) decode to a triple. -/
theorem decode_split_characterisation :
    (∀ f : String, hasUV (jsBasenameSrt f.data) = false → parseVersionedFilename f = none)
    ∧ (∀ (d1 d2 : List Char) (s : String),
        d1 ≠ [] → (∀ c ∈ d1, isDigitChar c = true) →
        d2 ≠ [] → (∀ c ∈ d2, isDigitChar c = true) →
        s ≠ "" → '_' ∉ s.data → '/' ∉ s.data → s.data.head? ≠ some 'v' →
        parseVersionedFilename ⟨d1 ++ '_' :: 'v' :: (d2 ++ '_' :: (s.data ++ srtExt))⟩
          = some ⟨(digitsVal d1 : Int), (digitsVal d2 : Int), s⟩) := by
  constructor
  · intro f h
    rw [parseVersionedFilename, parseVersionedFilenameL, hasUV_false_split _ h]
  · intro d1 d2 s h1 h1d h2 h2d hs hsu hss hsv
    exact parse_concat d1 d2 s h1 h1d h2 h2d (string_ne_empty_data hs) hsu hss hsv

theorem decode_split_characterisation_witness :
    parseVersionedFilename "legacy.srt" = none
    ∧ parseVersionedFilename ⟨['1'] ++ '_' :: 'v' :: (['2'] ++ '_' :: ("src".data ++ srtExt))⟩
        = some ⟨(digitsVal ['1'] : Int), (digitsVal ['2'] : Int), "src"⟩ :=
  ⟨decode_split_characterisation.1 "legacy.srt" (by decide),
   decode_split_characterisation.2 ['1'] ['2'] "src" (by decide) (by decide) (by decide)
     (by decide) (by decide) (by decide) (by decide) (by decide)⟩

/-- C5 counterexample: `1_v2_a_b.srt` matches the spec's versioned-filename
grammar (episode `1`, version `2`, source `a_b`), yet the decoder returns
`none` for it, contradicting "returns a triple for every filename that
matches". -/
theorem decode_null_on_grammar_match :
    MatchesVersionedGrammar "1_v2_a_b.srt"
    ∧ parseVersionedFilename "1_v2_a_b.srt" = none :=
  ⟨⟨['1'], ['2'], ['a', '_', 'b'],
    by decide, by decide, by decide, by decide, by decide, by decide⟩, by decide⟩

/-! ## Sanitiser lemmas: character classes -/

theorem out_spec (c : Char) (h : isOutChar c = true) :
    isAlnumChar c = true ∧ isJsSpace c = false ∧ c ≠ '-' ∧ slugStep c = [c]
      ∧ lowerChar c = c := by
  have hm : c ∈ lowerAlnumChars := of_decide_eq_true h
  fin_cases hm <;>
    exact ⟨by decide, by decide, by decide, by decide, by decide⟩

theorem upper_spec (c : Char) (h : c ∈ upperChars) :
    isJsSpace c = false ∧ isOutChar (lowerChar c) = true := by
  fin_cases h <;> exact ⟨by decide, by decide⟩

theorem alnum_cases (c : Char) (h : isAlnumChar c = true) :
    isOutChar c = true ∨ c ∈ upperChars := by
  rcases of_decide_eq_true h with h | h
  · exact Or.inl (decide_eq_true h)
  · exact Or.inr h

theorem alnum_not_space (c : Char) (h : isAlnumChar c = true) : isJsSpace c = false := by
  rcases alnum_cases c h with h | h
  · exact (out_spec c h).2.1
  · exact (upper_spec c h).1

theorem alnum_ne_dash (c : Char) (h : isAlnumChar c = true) : c ≠ '-' := by
  intro he
  subst he
  exact absurd h (by decide)

theorem out_lower (c : Char) (h : isAlnumChar c = true) : isOutChar (lowerChar c) = true := by
  rcases alnum_cases c h with h | h
  · rw [(out_spec c h).2.2.2.2]; exact h
  · exact (upper_spec c h).2

theorem out_ne_dash (c : Char) (h : isOutChar c = true) : c ≠ '-' := (out_spec c h).2.2.1

/-! ## Sanitiser lemmas: pipeline stages -/

theorem strictFilter_all (l : List Char) :
    ∀ c ∈ strictFilter l, (isAlnumChar c || isJsSpace c) = true := by
  intro c hc
  exact (List.mem_filter.mp hc).2

theorem head?_dropWhile_false {p : Char → Bool} :
    ∀ (l : List Char) (c : Char), (l.dropWhile p).head? = some c → p c = false := by
  intro l
  induction l with
  | nil => intro c h; simp at h
  | cons a r ih =>
    intro c h
    rw [List.dropWhile_cons] at h
    by_cases hp : p a = true
    · rw [if_pos hp] at h
      exact ih c h
    · rw [if_neg hp] at h
      simp at h
      subst h
      exact Bool.eq_false_iff.mpr hp

theorem mem_trimSpaces (l : List Char) (c : Char) (h : c ∈ trimSpaces l) : c ∈ l := by
  rw [trimSpaces] at h
  rw [List.mem_reverse] at h
  have h2 := (List.dropWhile_suffix isJsSpace).sublist.subset h
  rw [List.mem_reverse] at h2
  exact (List.dropWhile_suffix isJsSpace).sublist.subset h2

theorem trimSpaces_prefix (l : List Char) :
    trimSpaces l <+: l.dropWhile isJsSpace := by
  rw [trimSpaces]
  refine List.reverse_suffix.mp ?_
  rw [List.reverse_reverse]
  exact List.dropWhile_suffix isJsSpace

theorem trimSpaces_head (l : List Char) (c : Char)
    (h : (trimSpaces l).head? = some c) : isJsSpace c = false := by
  obtain ⟨t, ht⟩ := trimSpaces_prefix l
  cases hl : trimSpaces l with
  | nil => rw [hl] at h; simp at h
  | cons a r =>
    rw [hl] at h ht
    simp at h
    subst h
    have : (l.dropWhile isJsSpace).head? = some a := by
      rw [← ht]; rfl
    exact head?_dropWhile_false l a this

theorem trimSpaces_getLast (l : List Char) (c : Char)
    (h : (trimSpaces l).getLast? = some c) : isJsSpace c = false := by
  rw [trimSpaces, List.getLast?_reverse] at h
  exact head?_dropWhile_false _ c h

theorem collapseSpaces_ne_nil : ∀ l : List Char, l ≠ [] → collapseSpaces l ≠ [] := by
  intro l
  match l with
  | [] => intro h; exact absurd rfl h
  | [c] => intro _; simp [collapseSpaces]
  | a :: b :: r =>
    intro _
    rw [collapseSpaces]
    by_cases hab : isJsSpace a && isJsSpace b
    · rw [if_pos hab]
      exact collapseSpaces_ne_nil (b :: r) (by simp)
    · rw [if_neg hab]
      simp

theorem collapseSpaces_head : ∀ l : List Char,
    (collapseSpaces l).head? = l.head?.map (fun c => if isJsSpace c then '-' else c) := by
  intro l
  match l with
  | [] => rfl
  | [c] => rfl
  | a :: b :: r =>
    rw [collapseSpaces]
    by_cases hab : isJsSpace a && isJsSpace b
    · rw [if_pos hab]
      rw [collapseSpaces_head (b :: r)]
      rcases (by simpa using hab : isJsSpace a = true ∧ isJsSpace b = true) with ⟨ha, hb⟩
      simp [ha, hb]
    · rw [if_neg hab]
      rfl

theorem collapseSpaces_getLast : ∀ l : List Char,
    (collapseSpaces l).getLast? = l.getLast?.map (fun c => if isJsSpace c then '-' else c) := by
  intro l
  match l with
  | [] => rfl
  | [c] => rfl
  | a :: b :: r =>
    rw [collapseSpaces]
    by_cases hab : isJsSpace a && isJsSpace b
    · rw [if_pos hab, collapseSpaces_getLast (b :: r), List.getLast?_cons_cons]
    · rw [if_neg hab]
      cases hm : collapseSpaces (b :: r) with
      | nil => exact absurd hm (collapseSpaces_ne_nil (b :: r) (by simp))
      | cons c0 cs =>
        rw [List.getLast?_cons_cons, ← hm, collapseSpaces_getLast (b :: r),
          List.getLast?_cons_cons]

theorem orb_split {x y : Bool} (h : (x || y) = true) : x = true ∨ y = true := by
  cases x with
  | true => exact Or.inl rfl
  | false => exact Or.inr (by simpa using h)

theorem collapseSpaces_chars : ∀ l : List Char,
    (∀ c ∈ l, (isAlnumChar c || isJsSpace c) = true) →
    ∀ c ∈ collapseSpaces l, isAlnumChar c = true ∨ c = '-' := by
  intro l
  match l with
  | [] => intro _ c hc; simp [collapseSpaces] at hc
  | [a] =>
    intro h c hc
    simp [collapseSpaces] at hc
    by_cases ha : isJsSpace a = true
    · rw [if_pos ha] at hc; exact Or.inr hc
    · rw [if_neg ha] at hc
      rw [hc]
      rcases orb_split (h a (by simp)) with h1 | h1
      · exact Or.inl h1
      · exact absurd h1 ha
  | a :: b :: r =>
    intro h c hc
    rw [collapseSpaces] at hc
    by_cases hab : isJsSpace a && isJsSpace b
    · rw [if_pos hab] at hc
      exact collapseSpaces_chars (b :: r) (fun d hd => h d (by simp [hd])) c hc
    · rw [if_neg hab] at hc
      rcases List.mem_cons.mp hc with hc1 | hc2
      · by_cases ha : isJsSpace a = true
        · rw [if_pos ha] at hc1; exact Or.inr hc1
        · rw [if_neg ha] at hc1
          rw [hc1]
          rcases orb_split (h a (by simp)) with h1 | h1
          · exact Or.inl h1
          · exact absurd h1 ha
      · exact collapseSpaces_chars (b :: r) (fun d hd => h d (by simp [hd])) c hc2

theorem collapseSpaces_noDD : ∀ l : List Char,
    (∀ c ∈ l, (isAlnumChar c || isJsSpace c) = true) →
    noDoubleDash (collapseSpaces l) = true := by
  intro l
  match l with
  | [] => intro _; rfl
  | [a] => intro _; simp [collapseSpaces, noDoubleDash]
  | a :: b :: r =>
    intro h
    rw [collapseSpaces]
    by_cases hab : isJsSpace a && isJsSpace b
    · rw [if_pos hab]
      exact collapseSpaces_noDD (b :: r) (fun d hd => h d (by simp [hd]))
    · rw [if_neg hab]
      have htail := collapseSpaces_noDD (b :: r) (fun d hd => h d (by simp [hd]))
      cases hm : collapseSpaces (b :: r) with
      | nil => exact absurd hm (collapseSpaces_ne_nil (b :: r) (by simp))
      | cons c0 cs =>
        have hc0 : c0 = if isJsSpace b then '-' else b := by
          have := collapseSpaces_head (b :: r)
          rw [hm] at this
          simp at this
          exact this
        rw [hm] at htail
        rw [noDoubleDash, htail, Bool.and_true]
        by_cases hx : (if isJsSpace a then '-' else a) = '-'
        · have ha : isJsSpace a = true := by
            by_cases ha' : isJsSpace a = true
            · exact ha'
            · rw [if_neg ha'] at hx
              rcases orb_split (h a (by simp)) with h1 | h1
              · exact absurd hx (alnum_ne_dash _ h1)
              · exact absurd h1 ha'
          have hb : isJsSpace b = false :=
            (by simpa using hab : isJsSpace a = true → isJsSpace b = false) ha
          have hbal : isAlnumChar b = true := by
            rcases orb_split (h b (by simp)) with h1 | h1
            · exact h1
            · rw [h1] at hb; simp at hb
          rw [hx, hc0, hb]
          simp
          exact alnum_ne_dash b hbal
        · simp [hx]

theorem getLast?_map (f : Char → Char) (l : List Char) :
    (l.map f).getLast? = l.getLast?.map f := by
  rw [← List.head?_reverse, ← List.map_reverse, List.head?_map, List.head?_reverse]

theorem noDoubleDash_map_lower : ∀ l : List Char,
    (∀ c ∈ l, isAlnumChar c = true ∨ c = '-') → noDoubleDash l = true →
    noDoubleDash (l.map lowerChar) = true := by
  intro l
  match l with
  | [] => intro _ _; rfl
  | [a] => intro _ _; rfl
  | a :: b :: r =>
    intro h hd
    rw [noDoubleDash] at hd
    have hd' : (¬a = '-' ∨ ¬b = '-') ∧ noDoubleDash (b :: r) = true := by simpa using hd
    have hd2 : noDoubleDash (b :: r) = true := hd'.2
    have hab : ¬ (a = '-' ∧ b = '-') := by
      rcases hd'.1 with h1 | h1 <;> exact fun hx => h1 (by simp [hx.1, hx.2])
    have htail := noDoubleDash_map_lower (b :: r) (fun d hdm => h d (by simp [hdm])) hd2
    show noDoubleDash (lowerChar a :: lowerChar b :: r.map lowerChar) = true
    rw [noDoubleDash]
    have htail' : noDoubleDash (lowerChar b :: r.map lowerChar) = true := htail
    rw [htail', Bool.and_true]
    have key : ∀ c : Char, c ∈ a :: b :: r → lowerChar c = '-' → c = '-' := by
      intro c hcm he
      rcases h c hcm with h1 | h1
      · have := out_lower c h1
        rw [he] at this
        exact absurd this (by decide)
      · exact h1
    by_cases ha : lowerChar a = '-'
    · by_cases hb : lowerChar b = '-'
      · exact absurd ⟨key a (by simp) ha, key b (by simp) hb⟩ hab
      · simp [hb]
    · simp [ha]

/-- Every output of the sanitiser consists of lower-case alphanumerics and
single interior hyphens: no leading, trailing or doubled hyphen. -/
theorem sanitiseL_sanitized (l : List Char) :
    (∀ c ∈ sanitiseL l, isOutChar c = true ∨ c = '-') ∧
    (sanitiseL l).head? ≠ some '-' ∧
    (sanitiseL l).getLast? ≠ some '-' ∧
    noDoubleDash (sanitiseL l) = true := by
  set m := strictFilter (slugPass1 l) with hm
  set t := trimSpaces m with ht
  have htc : ∀ c ∈ t, (isAlnumChar c || isJsSpace c) = true := by
    intro c hc
    exact strictFilter_all (slugPass1 l) c (mem_trimSpaces m c hc)
  have huc := collapseSpaces_chars t htc
  refine ⟨?_, ?_, ?_, ?_⟩
  · intro c hc
    rw [sanitiseL] at hc
    rcases List.mem_map.mp hc with ⟨d, hd, hde⟩
    rcases huc d hd with h1 | h1
    · exact Or.inl (hde ▸ out_lower d h1)
    · refine Or.inr ?_
      rw [← hde, h1]
      rfl
  · intro hcon
    rw [sanitiseL, List.head?_map] at hcon
    cases hu : (collapseSpaces t).head? with
    | none => rw [hu] at hcon; simp at hcon
    | some d =>
      rw [hu] at hcon
      simp at hcon
      have hdm : d ∈ collapseSpaces t := List.mem_of_mem_head? (by rw [hu]; rfl)
      rcases huc d hdm with h1 | h1
      · have := out_lower d h1
        rw [hcon] at this
        exact absurd this (by decide)
      · rw [collapseSpaces_head t] at hu
        cases htt : t.head? with
        | none => rw [htt] at hu; simp at hu
        | some c0 =>
          rw [htt] at hu
          simp at hu
          have hns := trimSpaces_head m c0 htt
          rw [hns] at hu
          simp at hu
          have hc0 : (isAlnumChar c0 || isJsSpace c0) = true :=
            htc c0 (List.mem_of_mem_head? (by rw [htt]; rfl))
          rcases orb_split hc0 with h2 | h2
          · rw [← hu] at h1
            exact absurd h1 (alnum_ne_dash c0 h2)
          · rw [h2] at hns; simp at hns
  · intro hcon
    rw [sanitiseL, getLast?_map] at hcon
    cases hu : (collapseSpaces t).getLast? with
    | none => rw [hu] at hcon; simp at hcon
    | some d =>
      rw [hu] at hcon
      simp at hcon
      have hdm : d ∈ collapseSpaces t := by
        have : d ∈ (collapseSpaces t).reverse.head? := by
          rw [List.head?_reverse, hu]; rfl
        rw [← List.mem_reverse]
        exact List.mem_of_mem_head? this
      rcases huc d hdm with h1 | h1
      · have := out_lower d h1
        rw [hcon] at this
        exact absurd this (by decide)
      · rw [collapseSpaces_getLast t] at hu
        cases htt : t.getLast? with
        | none => rw [htt] at hu; simp at hu
        | some c0 =>
          rw [htt] at hu
          simp at hu
          have hns := trimSpaces_getLast m c0 htt
          rw [hns] at hu
          simp at hu
          have hc0m : c0 ∈ t := by
            have : c0 ∈ t.reverse.head? := by
              rw [List.head?_reverse, htt]; rfl
            rw [← List.mem_reverse]
            exact List.mem_of_mem_head? this
          rcases orb_split (htc c0 hc0m) with h2 | h2
          · rw [← hu] at h1
            exact absurd h1 (alnum_ne_dash c0 h2)
          · rw [h2] at hns; simp at hns
  · rw [sanitiseL]
    exact noDoubleDash_map_lower (collapseSpaces t) huc (collapseSpaces_noDD t htc)

theorem slugPass1_sanitized (l : List Char)
    (h : ∀ c ∈ l, isOutChar c = true ∨ c = '-') : slugPass1 l = dashToSpace l := by
  induction l with
  | nil => rfl
  | cons c r ih =>
    have hstep : slugPass1 (c :: r) = slugStep c ++ slugPass1 r := by
      simp [slugPass1]
    rw [hstep, ih (fun d hd => h d (by simp [hd]))]
    rcases h c (by simp) with h1 | h1
    · rw [(out_spec c h1).2.2.2.1]
      show c :: dashToSpace r = dashToSpace (c :: r)
      simp [dashToSpace, (out_spec c h1).2.2.1]
    · rw [h1]
      show slugStep '-' ++ dashToSpace r = dashToSpace ('-' :: r)
      have hsd : slugStep '-' = [' '] := by decide
      rw [hsd]
      simp [dashToSpace]

theorem dashToSpace_classes (l : List Char)
    (h : ∀ c ∈ l, isOutChar c = true ∨ c = '-') :
    ∀ c ∈ dashToSpace l, (isAlnumChar c || isJsSpace c) = true := by
  intro c hc
  rcases List.mem_map.mp hc with ⟨d, hd, hde⟩
  rcases h d hd with h1 | h1
  · by_cases hdd : d = '-'
    · rw [hdd] at h1; exact absurd h1 (by decide)
    · rw [← hde]
      simp only [if_neg hdd]
      rw [(out_spec d h1).1]
      rfl
  · rw [← hde, h1]
    decide

theorem trimSpaces_id (l : List Char)
    (hh : ∀ c, l.head? = some c → isJsSpace c = false)
    (hl : ∀ c, l.getLast? = some c → isJsSpace c = false) : trimSpaces l = l := by
  have h1 : l.dropWhile isJsSpace = l := by
    cases l with
    | nil => rfl
    | cons a r =>
      rw [List.dropWhile_cons, hh a rfl]
      simp
  rw [trimSpaces, h1]
  cases hr : l.reverse with
  | nil =>
    have : l = [] := by simpa using congrArg List.reverse hr
    simp [this]
  | cons b s =>
    have hb : l.getLast? = some b := by
      rw [← List.head?_reverse, hr]; rfl
    rw [List.dropWhile_cons, hl b hb]
    simp only [Bool.false_eq_true, if_false]
    rw [← hr, List.reverse_reverse]

theorem dashToSpace_space (c : Char) (hc : isOutChar c = true ∨ c = '-') :
    isJsSpace (if c = '-' then ' ' else c) = true ↔ c = '-' := by
  constructor
  · intro h
    by_cases hdd : c = '-'
    · exact hdd
    · rw [if_neg hdd] at h
      rcases hc with h1 | h1
      · rw [(out_spec c h1).2.1] at h; simp at h
      · exact absurd h1 hdd
  · intro h
    rw [if_pos h]
    decide

theorem collapse_dashToSpace : ∀ l : List Char,
    (∀ c ∈ l, isOutChar c = true ∨ c = '-') → noDoubleDash l = true →
    collapseSpaces (dashToSpace l) = l := by
  intro l
  match l with
  | [] => intro _ _; rfl
  | [a] =>
    intro h _
    show collapseSpaces [if a = '-' then ' ' else a] = [a]
    rw [collapseSpaces]
    rcases h a (by simp) with h1 | h1
    · rw [if_neg (out_ne_dash a h1), (out_spec a h1).2.1]
      rfl
    · rw [if_pos h1, h1]
      rfl
  | a :: b :: r =>
    intro h hd
    rw [noDoubleDash] at hd
    have hd' : (¬a = '-' ∨ ¬b = '-') ∧ noDoubleDash (b :: r) = true := by simpa using hd
    have ha := h a (by simp)
    have hb := h b (by simp)
    show collapseSpaces ((if a = '-' then ' ' else a) :: (if b = '-' then ' ' else b)
      :: dashToSpace r) = a :: b :: r
    rw [collapseSpaces]
    have hcond : ¬ (isJsSpace (if a = '-' then ' ' else a)
        && isJsSpace (if b = '-' then ' ' else b)) = true := by
      intro hx
      have hx' : isJsSpace (if a = '-' then ' ' else a) = true
          ∧ isJsSpace (if b = '-' then ' ' else b) = true := by simpa using hx
      have haa := (dashToSpace_space a ha).mp hx'.1
      have hbb := (dashToSpace_space b hb).mp hx'.2
      rcases hd'.1 with h1 | h1
      · exact h1 haa
      · exact h1 hbb
    rw [if_neg hcond]
    have htail : collapseSpaces ((if b = '-' then ' ' else b) :: dashToSpace r) = b :: r :=
      collapse_dashToSpace (b :: r) (fun d hdm => h d (by simp [hdm])) hd'.2
    rw [htail]
    congr 1
    by_cases haa : a = '-'
    · rw [if_pos haa]
      have : isJsSpace ' ' = true := by decide
      rw [if_pos this, haa]
    · rw [if_neg haa]
      rcases ha with h1 | h1
      · rw [(out_spec a h1).2.1]
        simp
      · exact absurd h1 haa

theorem map_lower_id (l : List Char)
    (h : ∀ c ∈ l, isOutChar c = true ∨ c = '-') : l.map lowerChar = l := by
  induction l with
  | nil => rfl
  | cons c r ih =>
    show lowerChar c :: r.map lowerChar = c :: r
    rw [ih (fun d hd => h d (by simp [hd]))]
    congr 1
    rcases h c (by simp) with h1 | h1
    · exact (out_spec c h1).2.2.2.2
    · rw [h1]; decide

/-- A string already in sanitised form is a fixed point of the sanitiser. -/
theorem sanitiseL_fixed (l : List Char)
    (hc : ∀ c ∈ l, isOutChar c = true ∨ c = '-')
    (hh : l.head? ≠ some '-') (hl : l.getLast? ≠ some '-')
    (hd : noDoubleDash l = true) : sanitiseL l = l := by
  have hpass : slugPass1 l = dashToSpace l := slugPass1_sanitized l hc
  have hstrict : strictFilter (dashToSpace l) = dashToSpace l :=
    List.filter_eq_self.mpr (dashToSpace_classes l hc)
  have htrim : trimSpaces (dashToSpace l) = dashToSpace l := by
    refine trimSpaces_id (dashToSpace l) ?_ ?_
    · intro c hcc
      rw [dashToSpace, List.head?_map] at hcc
      cases hhl : l.head? with
      | none => rw [hhl] at hcc; simp at hcc
      | some a =>
        rw [hhl] at hcc
        simp at hcc
        have ham : a ∈ l := List.mem_of_mem_head? (by rw [hhl]; rfl)
        have hand : a ≠ '-' := fun he => hh (he ▸ hhl)
        rcases hc a ham with h1 | h1
        · rw [← hcc, if_neg hand, (out_spec a h1).2.1]
        · exact absurd h1 hand
    · intro c hcc
      rw [dashToSpace, getLast?_map] at hcc
      cases hhl : l.getLast? with
      | none => rw [hhl] at hcc; simp at hcc
      | some a =>
        rw [hhl] at hcc
        simp at hcc
        have ham : a ∈ l := by
          have : a ∈ l.reverse.head? := by rw [List.head?_reverse, hhl]; rfl
          rw [← List.mem_reverse]
          exact List.mem_of_mem_head? this
        have hand : a ≠ '-' := fun he => hl (he ▸ hhl)
        rcases hc a ham with h1 | h1
        · rw [← hcc, if_neg hand, (out_spec a h1).2.1]
        · exact absurd h1 hand
  rw [sanitiseL, hpass, hstrict, htrim, collapse_dashToSpace l hc hd, map_lower_id l hc]

/-- C6: the slug sanitiser is idempotent — sanitising an already sanitised
string returns it unchanged — and its output never contains the
key-structurally significant character `/`. -/
theorem sanitise_idempotent_no_slash (s : String) :
    sanitise (sanitise s) = sanitise s ∧ '/' ∉ (sanitise s).data := by
  obtain ⟨hcls, hh, hl, hd⟩ := sanitiseL_sanitized s.data
  constructor
  · show (⟨sanitiseL (sanitiseL s.data)⟩ : String) = ⟨sanitiseL s.data⟩
    rw [sanitiseL_fixed _ hcls hh hl hd]
  · intro hm
    rcases hcls _ hm with h | h
    · exact absurd h (by decide)
    · exact absurd h (by decide)

/-- C1 (code bug evaluation): when the episode reaches the single-file upload
branch as the form-field string `"3"`, the allocation scan's strict equality
`parsed.episode === episode` compares a number with a string and never
matches, so the second upload is again assigned version 1 and overwrites the
same key instead of getting version 2; with the numeric (filename-derived)
episode the same store yields versions 1 then 2 as the claim expects. -/
theorem upload_string_episode_version_stuck :
    uploadSingle [] "show" none (some (.str "3")) "src"
      = .ok (["shows/show/3_v1_src.srt"], ⟨"3_v1_src.srt", .str "3", 1, "src"⟩)
    ∧ uploadSingle ["shows/show/3_v1_src.srt"] "show" none (some (.str "3")) "src"
      = .ok (["shows/show/3_v1_src.srt"], ⟨"3_v1_src.srt", .str "3", 1, "src"⟩)
    ∧ uploadSingle [] "show" none (some (.num 3)) "src"
      = .ok (["shows/show/3_v1_src.srt"], ⟨"3_v1_src.srt", .num 3, 1, "src"⟩)
    ∧ uploadSingle ["shows/show/3_v1_src.srt"] "show" none (some (.num 3)) "src"
      = .ok (["shows/show/3_v1_src.srt", "shows/show/3_v2_src.srt"],
          ⟨"3_v2_src.srt", .num 3, 2, "src"⟩) :=
  ⟨by decide, by decide, by decide, by decide⟩

/-- C3 (amended): for the keys `shows/foo/1_v1_alpha.srt`,
`shows/foo/1_v2_beta.srt`, `shows/foo/season-1/2_v1_gamma.srt` in the store's
listing order, the catalog builder groups episode 1's two versions under `foo`
as a season-less array; the season-1 episode is held only as a non-index
property of that array, which the JSON serialisation of an array drops, so the
response shows `foo` as a plain list and the season data is lost — the shapes
are mixed internally, not decided consistently. -/
theorem catalog_mixed_shape_grouping :
    buildCatalog ["shows/foo/1_v1_alpha.srt", "shows/foo/1_v2_beta.srt",
        "shows/foo/season-1/2_v1_gamma.srt"]
      = [("foo", .arr [⟨1, [⟨1, "alpha", "1_v1_alpha.srt"⟩, ⟨2, "beta", "1_v2_beta.srt"⟩]⟩]
          [("season-1", [⟨2, [⟨1, "gamma", "2_v1_gamma.srt"⟩]⟩])])]
    ∧ buildCatalogJson ["shows/foo/1_v1_alpha.srt", "shows/foo/1_v2_beta.srt",
        "shows/foo/season-1/2_v1_gamma.srt"]
      = [("foo", .list [⟨1, [⟨1, "alpha", "1_v1_alpha.srt"⟩, ⟨2, "beta", "1_v2_beta.srt"⟩]⟩])] :=
  ⟨by decide, by decide⟩

/-- C3 counterexample: on the three keys of the claim, the built catalog does
not represent `foo` as a season mapping containing `season-1`; instead `foo`
is the season-less list of episode 1's two versions. -/
theorem catalog_not_season_mapping :
    buildCatalogJson ["shows/foo/1_v1_alpha.srt", "shows/foo/1_v2_beta.srt",
        "shows/foo/season-1/2_v1_gamma.srt"]
      = [("foo", .list [⟨1, [⟨1, "alpha", "1_v1_alpha.srt"⟩, ⟨2, "beta", "1_v2_beta.srt"⟩]⟩])]
    ∧ buildCatalogJson ["shows/foo/1_v1_alpha.srt", "shows/foo/1_v2_beta.srt",
        "shows/foo/season-1/2_v1_gamma.srt"]
      ≠ [("foo", .mapping [("season-1", [⟨2, [⟨1, "gamma", "2_v1_gamma.srt"⟩]⟩])])] :=
  ⟨by decide, by decide⟩

/-- C9 counterexample: the title `!!!` is non-empty yet sanitises to the empty
string; the upload does not fail with a client error — it succeeds and stores
an object under a key whose show segment is empty. -/
theorem upload_punct_title_stores_key :
    sanitise "!!!" = "" ∧ ("!!!" : String) ≠ "" ∧
    uploadSingle [] "!!!" none (some (.num 3)) "src"
      = .ok (["shows//3_v1_src.srt"], ⟨"3_v1_src.srt", .num 3, 1, "src"⟩) :=
  ⟨by decide, by decide, by decide⟩

/-- C8 counterexample: `shows/bar/legacy.srt` has an undecodable leaf, yet the
show `bar` still appears in the JSON catalog (as an empty mapping), refuting
"a show whose keys are all undecodable does not appear in the catalog at
all". -/
theorem undecodable_show_appears_empty :
    parseVersionedFilename "legacy.srt" = none
    ∧ buildCatalogJson ["shows/bar/legacy.srt"] = [("bar", ShowJson.mapping [])]
    ∧ (buildCatalogJson ["shows/bar/legacy.srt"]).map Prod.fst = ["bar"] :=
  ⟨by decide, by decide, by decide⟩

/-- C7: deleting season "1" of show "foo" removes exactly the stored keys with
prefix `shows/foo/season-1/` and leaves every other stored key — for example
`shows/foo/2_v1_x.srt`, which does not carry the season prefix — unchanged. -/
theorem delete_season_prefix_scoped :
    (∀ (store : List String) (k : String),
      k ∈ (deleteSeasonRoute store "foo" "1").1 ↔
        (k ∈ store ∧ keyStartsWith k "shows/foo/season-1/" = false))
    ∧ keyStartsWith "shows/foo/2_v1_x.srt" "shows/foo/season-1/" = false := by
  constructor
  · intro store k
    have hpre : ("shows/" ++ sanitise "foo" ++ "/" ++ ("season-" ++ sanitise "1") ++ "/")
        = "shows/foo/season-1/" := by decide
    rw [deleteSeasonRoute, hpre, deleteFilesByPrefix]
    simp only [List.mem_filter]
    constructor
    · rintro ⟨h1, h2⟩
      exact ⟨h1, by simpa using h2⟩
    · rintro ⟨h1, h2⟩
      exact ⟨h1, by simpa using h2⟩
  · decide

theorem filter_first_decomp (p : String → Bool) :
    ∀ (store : List String) (k : String) (rest : List String),
    store.filter p = k :: rest →
    ∃ l1 l2, store = l1 ++ k :: l2 ∧ (∀ j ∈ l1, p j = false) ∧ p k = true
      ∧ eraseFirstKey store k = l1 ++ l2 := by
  intro store
  induction store with
  | nil => intro k rest h; simp at h
  | cons c cs ih =>
    intro k rest h
    rw [List.filter_cons] at h
    by_cases hp : p c = true
    · rw [if_pos hp] at h
      injection h with h1 h2
      subst h1
      refine ⟨[], cs, rfl, by simp, hp, ?_⟩
      rw [eraseFirstKey, if_pos rfl]
      rfl
    · rw [if_neg hp] at h
      obtain ⟨l1, l2, he, hl1, hk, her⟩ := ih k rest h
      have hck : ¬ c = k := by
        intro hche
        rw [hche] at hp
        exact hp hk
      refine ⟨c :: l1, l2, by rw [List.cons_append, he], ?_, hk, ?_⟩
      · intro j hj
        rcases List.mem_cons.mp hj with h1 | h1
        · rw [h1]
          exact Bool.eq_false_iff.mpr hp
        · exact hl1 j h1
      · rw [eraseFirstKey, if_neg hck, her, List.cons_append]

/-- C10: for both exact-version delete routes (no-season and with-season),
when the exact-version prefix matches at least one stored object, the route
removes exactly one object — the first matching key in the store's listing
order — keeps every other stored object (including later keys matching the
same prefix), and responds success with no count of matched objects. -/
theorem delete_exact_version_removes_first :
    (∀ (store : List String) (showT : String) (ep ver : Int) (k : String)
        (rest : List String),
      getFilesByPrefix store (versionPrefix showT ep ver) = k :: rest →
      ∃ l1 l2, store = l1 ++ k :: l2
        ∧ (∀ j ∈ l1, keyStartsWith j (versionPrefix showT ep ver) = false)
        ∧ keyStartsWith k (versionPrefix showT ep ver) = true
        ∧ deleteVersionRoute store showT ep ver = .ok (l1 ++ l2, none))
    ∧ (∀ (store : List String) (showT season : String) (ep ver : Int) (k : String)
        (rest : List String),
      getFilesByPrefix store (versionPrefixSeason showT season ep ver) = k :: rest →
      ∃ l1 l2, store = l1 ++ k :: l2
        ∧ (∀ j ∈ l1, keyStartsWith j (versionPrefixSeason showT season ep ver) = false)
        ∧ keyStartsWith k (versionPrefixSeason showT season ep ver) = true
        ∧ deleteVersionSeasonRoute store showT season ep ver = .ok (l1 ++ l2, none)) := by
  constructor
  · intro store showT ep ver k rest h
    obtain ⟨l1, l2, he, hl1, hk, her⟩ :=
      filter_first_decomp (fun j => keyStartsWith j (versionPrefix showT ep ver)) store k rest h
    refine ⟨l1, l2, he, hl1, hk, ?_⟩
    rw [deleteVersionRoute, h]
    show Except.ok (eraseFirstKey store k, (none : Option Nat)) = _
    rw [her]
  · intro store showT season ep ver k rest h
    obtain ⟨l1, l2, he, hl1, hk, her⟩ :=
      filter_first_decomp (fun j => keyStartsWith j (versionPrefixSeason showT season ep ver))
        store k rest h
    refine ⟨l1, l2, he, hl1, hk, ?_⟩
    rw [deleteVersionSeasonRoute, h]
    show Except.ok (eraseFirstKey store k, (none : Option Nat)) = _
    rw [her]

theorem delete_exact_version_removes_first_witness :
    (∃ l1 l2, ["shows/s/1_v1_a.srt", "shows/s/1_v1_b.srt"] = l1 ++ "shows/s/1_v1_a.srt" :: l2
      ∧ (∀ j ∈ l1, keyStartsWith j (versionPrefix "s" 1 1) = false)
      ∧ keyStartsWith "shows/s/1_v1_a.srt" (versionPrefix "s" 1 1) = true
      ∧ deleteVersionRoute ["shows/s/1_v1_a.srt", "shows/s/1_v1_b.srt"] "s" 1 1
          = .ok (l1 ++ l2, none))
    ∧ (∃ l1 l2, ["shows/s/season-2/1_v1_a.srt", "shows/s/season-2/1_v1_b.srt"]
          = l1 ++ "shows/s/season-2/1_v1_a.srt" :: l2
      ∧ (∀ j ∈ l1, keyStartsWith j (versionPrefixSeason "s" "2" 1 1) = false)
      ∧ keyStartsWith "shows/s/season-2/1_v1_a.srt" (versionPrefixSeason "s" "2" 1 1) = true
      ∧ deleteVersionSeasonRoute ["shows/s/season-2/1_v1_a.srt", "shows/s/season-2/1_v1_b.srt"]
          "s" "2" 1 1 = .ok (l1 ++ l2, none)) :=
  ⟨delete_exact_version_removes_first.1 ["shows/s/1_v1_a.srt", "shows/s/1_v1_b.srt"] "s" 1 1
      "shows/s/1_v1_a.srt" ["shows/s/1_v1_b.srt"] (by decide),
   delete_exact_version_removes_first.2
      ["shows/s/season-2/1_v1_a.srt", "shows/s/season-2/1_v1_b.srt"] "s" "2" 1 1
      "shows/s/season-2/1_v1_a.srt" ["shows/s/season-2/1_v1_b.srt"] (by decide)⟩

/-! ## Version-allocator lemmas -/

theorem foldl_scan_eq (episode : Int) :
    ∀ (files : List String) (a : Int),
    files.foldl (fun mv f =>
      match parseVersionedFilename (keyLeaf f) with
      | some p => if p.episode == episode then max mv p.version else mv
      | none => mv) a
    = (files.filterMap (fun f =>
        match parseVersionedFilename (keyLeaf f) with
        | some p => if p.episode == episode then some p.version else none
        | none => none)).foldl max a := by
  intro files
  induction files with
  | nil => intro a; rfl
  | cons f fs ih =>
    intro a
    rw [List.foldl_cons, List.filterMap_cons]
    cases hp : parseVersionedFilename (keyLeaf f) with
    | none =>
      simp only [hp]
      exact ih a
    | some p =>
      simp only [hp]
      by_cases he : (p.episode == episode) = true
      · simp only [he, if_true]
        rw [List.foldl_cons]
        exact ih (max a p.version)
      · simp only [he, if_false]
        exact ih a

theorem foldl_max_init_le : ∀ (l : List Int) (a : Int), a ≤ l.foldl max a := by
  intro l
  induction l with
  | nil => intro a; simp
  | cons x xs ih =>
    intro a
    rw [List.foldl_cons]
    exact le_trans (le_max_left a x) (ih (max a x))

theorem le_foldl_max : ∀ (l : List Int) (a v : Int), v ∈ l → v ≤ l.foldl max a := by
  intro l
  induction l with
  | nil => intro a v h; simp at h
  | cons x xs ih =>
    intro a v h
    rw [List.foldl_cons]
    rcases List.mem_cons.mp h with h1 | h1
    · subst h1
      exact le_trans (le_max_right a v) (foldl_max_init_le xs (max a v))
    · exact ih (max a x) v h1

theorem foldl_max_mem : ∀ (l : List Int) (a : Int), l.foldl max a = a ∨ l.foldl max a ∈ l := by
  intro l
  induction l with
  | nil => intro a; exact Or.inl rfl
  | cons x xs ih =>
    intro a
    rw [List.foldl_cons]
    rcases ih (max a x) with h1 | h1
    · rcases max_choice a x with h2 | h2
      · exact Or.inl (by rw [h1, h2])
      · exact Or.inr (by rw [h1, h2]; exact List.mem_cons_self x xs)
    · exact Or.inr (List.mem_cons_of_mem x h1)

theorem nextVersion_eq (store : List String) (pre : String) (ep : Int) :
    nextVersion store pre ep = (storedVersions store pre ep).foldl max 0 + 1 := by
  rw [nextVersion, storedVersions, foldl_scan_eq]

theorem storedVersions_delete (store : List String) (pre : String) (ep : Int) :
    storedVersions (deleteFilesByPrefix store pre).1 pre ep = [] := by
  rw [storedVersions, deleteFilesByPrefix]
  have hfil : ((store.filter (fun k => !keyStartsWith k pre)).filter
      (fun k => keyStartsWith k pre)) = [] := by
    induction store with
    | nil => rfl
    | cons c cs ih =>
      rw [List.filter_cons]
      by_cases hc : keyStartsWith c pre = true
      · simp only [hc, Bool.not_true, Bool.false_eq_true, if_false]
        exact ih
      · have hc' : keyStartsWith c pre = false := Bool.eq_false_iff.mpr hc
        simp only [hc', Bool.not_false, if_true, List.filter_cons, Bool.false_eq_true, if_false]
        exact ih
  show ((store.filter (fun k => !keyStartsWith k pre)).filter
      (fun k => keyStartsWith k pre)).filterMap _ = []
  rw [hfil]
  rfl

/-- C4: the version allocator returns the maximum of the versions currently
stored under the episode scope plus one (the fold's base is 0, so it returns
1 when nothing is stored there, and the fold value bounds and is attained by
the stored versions); and after the delete-episode route removes all versions
of the episode, the scope is empty and the next allocation is 1 again. -/
theorem next_version_max_plus_one (store : List String) (title : String)
    (season : Option String) (ep : Nat) :
    nextVersion store (scopePrefix title season ep) (ep : Int)
        = (storedVersions store (scopePrefix title season ep) (ep : Int)).foldl max 0 + 1
    ∧ (storedVersions store (scopePrefix title season ep) (ep : Int) = [] →
        nextVersion store (scopePrefix title season ep) (ep : Int) = 1)
    ∧ (∀ v ∈ storedVersions store (scopePrefix title season ep) (ep : Int),
        v ≤ (storedVersions store (scopePrefix title season ep) (ep : Int)).foldl max 0)
    ∧ ((storedVersions store (scopePrefix title season ep) (ep : Int)).foldl max 0
          ∈ storedVersions store (scopePrefix title season ep) (ep : Int)
        ∨ (storedVersions store (scopePrefix title season ep) (ep : Int)).foldl max 0 = 0)
    ∧ storedVersions (deleteEpisodeRoute store title season ep).1
        (scopePrefix title season ep) (ep : Int) = []
    ∧ nextVersion (deleteEpisodeRoute store title season ep).1
        (scopePrefix title season ep) (ep : Int) = 1 := by
  have hdel : storedVersions (deleteEpisodeRoute store title season ep).1
      (scopePrefix title season ep) (ep : Int) = [] := by
    rw [deleteEpisodeRoute]
    exact storedVersions_delete store (scopePrefix title season ep) (ep : Int)
  refine ⟨nextVersion_eq store _ _, ?_, ?_, ?_, hdel, ?_⟩
  · intro h
    rw [nextVersion_eq, h]
    rfl
  · intro v hv
    exact le_foldl_max _ 0 v hv
  · rcases foldl_max_mem (storedVersions store (scopePrefix title season ep) (ep : Int)) 0
      with h1 | h1
    · exact Or.inr h1
    · exact Or.inl h1
  · rw [nextVersion_eq, hdel]
    rfl

theorem next_version_max_plus_one_witness :
    nextVersion [] (scopePrefix "t" none 3) ((3 : Nat) : Int) = 1
    ∧ nextVersion (deleteEpisodeRoute ["shows/t/3_v7_a.srt"] "t" none 3).1
        (scopePrefix "t" none 3) ((3 : Nat) : Int) = 1
    ∧ (∀ v ∈ storedVersions ["shows/t/3_v7_a.srt"] (scopePrefix "t" none 3) ((3 : Nat) : Int),
        v ≤ (storedVersions ["shows/t/3_v7_a.srt"] (scopePrefix "t" none 3)
              ((3 : Nat) : Int)).foldl max 0) :=
  ⟨(next_version_max_plus_one [] "t" none 3).2.1 (by decide),
   (next_version_max_plus_one ["shows/t/3_v7_a.srt"] "t" none 3).2.2.2.2.2,
   (next_version_max_plus_one ["shows/t/3_v7_a.srt"] "t" none 3).2.2.1⟩

/-! ## Undecodable-key tolerance -/

theorem filterMap_filter_indep {α : Type} (p d : String → Bool) (g : String → Option α)
    (hg : ∀ x, d x = false → g x = none) :
    ∀ l : List String, ((l.filter d).filter p).filterMap g = (l.filter p).filterMap g := by
  intro l
  induction l with
  | nil => rfl
  | cons x xs ih =>
    by_cases hd : d x = true
    · by_cases hp : p x = true
      · simp only [List.filter_cons, hd, hp, if_true, List.filterMap_cons]
        cases hgx : g x with
        | none => exact ih
        | some b => rw [ih]
      · have hp' : p x = false := Bool.eq_false_iff.mpr hp
        simp only [List.filter_cons, hd, hp', if_true, Bool.false_eq_true, if_false]
        exact ih
    · have hd' : d x = false := Bool.eq_false_iff.mpr hd
      by_cases hp : p x = true
      · simp only [List.filter_cons, hd', hp, if_true, Bool.false_eq_true, if_false,
          List.filterMap_cons, hg x hd']
        exact ih
      · have hp' : p x = false := Bool.eq_false_iff.mpr hp
        simp only [List.filter_cons, hd', hp', Bool.false_eq_true, if_false]
        exact ih

/-- C8 (amended): a stored key whose leaf cannot be decoded contributes
nothing to the versions route — its output is unchanged if all undecodable
keys are removed from the store — and a catalog-builder step on an
undecodable key adds no episode or version data: it either leaves the catalog
unchanged or merely registers the key's show segment as an empty container.
(The registration is why a show whose keys are all undecodable still appears,
empty, in the catalog — see the counterexample.) -/
theorem undecodable_keys_contribute_nothing :
    (∀ (store : List String) (title epStr : String),
      versionsRoute store title epStr
        = versionsRoute (store.filter fun k => (parseVersionedFilename (keyLeaf k)).isSome)
            title epStr)
    ∧ (∀ (shows : List (String × ShowData)) (key : String),
        parseVersionedFilename (keyLeaf key) = none →
        catStep shows key = shows
          ∨ catStep shows key = shows ++ [(keyShow key, ShowData.obj [])]) := by
  constructor
  · intro store title epStr
    rw [versionsRoute, versionsRoute]
    congr 1
    rw [getFilesByPrefix, getFilesByPrefix]
    refine (filterMap_filter_indep _ _ _ ?_ store).symm
    intro x hx
    cases hp : parseVersionedFilename (keyLeaf x) with
    | none => simp [hp]
    | some p => rw [hp] at hx; simp at hx
  · intro shows key h
    simp only [catStep, h]
    by_cases hlen : (splitCh '/' key.data).length < 3
    · rw [if_pos hlen]
      exact Or.inl rfl
    · rw [if_neg hlen]
      by_cases hlk : (lookupSD shows (keyShow key)).isSome = true
      · rw [if_pos hlk]
        exact Or.inl rfl
      · rw [if_neg hlk]
        exact Or.inr rfl

theorem undecodable_keys_contribute_nothing_witness :
    versionsRoute ["shows/bar/legacy.srt"] "bar" "1"
      = versionsRoute (["shows/bar/legacy.srt"].filter
          fun k => (parseVersionedFilename (keyLeaf k)).isSome) "bar" "1"
    ∧ (catStep [] "shows/bar/legacy.srt" = []
        ∨ catStep [] "shows/bar/legacy.srt"
            = [] ++ [(keyShow "shows/bar/legacy.srt", ShowData.obj [])]) :=
  ⟨undecodable_keys_contribute_nothing.1 ["shows/bar/legacy.srt"] "bar" "1",
   undecodable_keys_contribute_nothing.2 [] "shows/bar/legacy.srt" (by decide)⟩

/-- C9 (amended): an upload whose non-empty title sanitises to the empty
string is not rejected: the single-file branch validates only the presence of
title, source and episode, so the operation proceeds and stores the object
under a key whose show segment is empty (the key begins `shows//`). -/
theorem upload_empty_slug_title_succeeds (store : List String) (title source : String)
    (n : Nat) (ht : title ≠ "") (hs : sanitise title = "") (hsrc : source ≠ "")
    (hn : n ≠ 0) :
    ∃ st entry, uploadSingle store title none (some (.num n)) source = .ok (st, entry)
      ∧ st = jsSave store ("shows//" ++ entry.filename)
      ∧ entry.source = source ∧ entry.episode = .num n := by
  have hf : epFalsy (some (EpParam.num n)) = false := by
    simp [epFalsy, hn]
  rw [uploadSingle, if_neg ht, if_neg hsrc, hf]
  simp only [Bool.false_eq_true, if_false]
  refine ⟨_, _, rfl, ?_, rfl, rfl⟩
  rw [hs]
  have hkey : (("shows/" ++ "") ++ seasonSeg none) ++ "/" = "shows//" := by decide
  rw [hkey]

theorem upload_empty_slug_title_succeeds_witness :
    ("!!!" : String) ≠ "" ∧ sanitise "!!!" = "" ∧
    ∃ st entry, uploadSingle [] "!!!" none (some (.num 3)) "src" = .ok (st, entry)
      ∧ st = jsSave [] ("shows//" ++ entry.filename)
      ∧ entry.source = "src" ∧ entry.episode = .num 3 :=
  ⟨by decide, by decide,
   upload_empty_slug_title_succeeds [] "!!!" "src" 3 (by decide) (by decide) (by decide)
     (by decide)⟩

theorem sanitise_idempotent_no_slash_witness :
    sanitise (sanitise "Some Show: Part 2!") = sanitise "Some Show: Part 2!"
    ∧ '/' ∉ (sanitise "Some Show: Part 2!").data :=
  sanitise_idempotent_no_slash "Some Show: Part 2!"

theorem delete_season_prefix_scoped_witness :
    ("shows/foo/2_v1_x.srt" ∈ (deleteSeasonRoute ["shows/foo/season-1/2_v1_g.srt",
        "shows/foo/2_v1_x.srt"] "foo" "1").1 ↔
      ("shows/foo/2_v1_x.srt" ∈ ["shows/foo/season-1/2_v1_g.srt", "shows/foo/2_v1_x.srt"]
        ∧ keyStartsWith "shows/foo/2_v1_x.srt" "shows/foo/season-1/" = false))
    ∧ keyStartsWith "shows/foo/2_v1_x.srt" "shows/foo/season-1/" = false :=
  ⟨delete_season_prefix_scoped.1 ["shows/foo/season-1/2_v1_g.srt", "shows/foo/2_v1_x.srt"]
      "shows/foo/2_v1_x.srt",
   delete_season_prefix_scoped.2⟩

end Subserver
